import Mathlib

/-!
Verification of the seekable input-stream component of the repository
(`src/system/input_stream.rs`): the `MemoryInputStream` and `FileInputStream`
implementations of the `InputStream` trait.

Machine integers are modelled as unbounded `Int`/`Nat` with the Rust casts
(`as usize`, `as i64`, `as u64`) made explicit where they matter.
The memory buffer behind a `MemoryInputStream` is modelled as a `List Nat`
of its bytes; the null-pointer / unopened state is `Option.none`.
The OS file behind a `FileInputStream` is modelled as an `OsFile` state
carrying the file length, the cursor position, and a schedule of I/O
failures (one `Bool` consumed per underlying I/O call, `true` = that call
fails), so that theorems can quantify over failure patterns.
-/

/-- Rust `as u64` / `as usize` (64-bit) cast applied to an `i64` value:
wraps modulo 2^64 and is non-negative. -/
def u64OfI64 (p : Int) : Nat :=
  (p % (2 ^ 64)).toNat

/-- Rust `as i64` cast applied to a `u64`/`usize` value: values at or above
2^63 wrap to negative. -/
def i64OfU64 (n : Nat) : Int :=
  if n < 2 ^ 63 then (n : Int) else (n : Int) - 2 ^ 64

/-- Rust unchecked `i64` addition with release-build semantics: the result
wraps into `[-2^63, 2^63)` on overflow (a debug build would panic). -/
def i64Add (a b : Int) : Int :=
  (a + b + 2 ^ 63) % 2 ^ 64 - 2 ^ 63

/-- Rust unchecked `i64` subtraction with release-build semantics: the
result wraps into `[-2^63, 2^63)` on overflow (a debug build would panic). -/
def i64Sub (a b : Int) : Int :=
  (a - b + 2 ^ 63) % 2 ^ 64 - 2 ^ 63

/-- `MemoryInputStream` from `input_stream.rs`: a raw pointer to a byte
buffer (`none` models the null pointer of the default-constructed stream;
`some buf` models a pointer to the bytes `buf`), a size and an offset,
both `i64` in the source. -/
structure MemoryInputStream where
  data : Option (List Nat)
  size : Int
  offset : Int
  deriving Repr, DecidableEq

/-- `MemoryInputStream::default()`: null data pointer, size 0, offset 0. -/
def MemoryInputStream.default : MemoryInputStream :=
  { data := none, size := 0, offset := 0 }

/-- `MemoryInputStream::open(data, size_in_bytes)`: binds the buffer, sets
`size = size_in_bytes as i64`, resets the offset to 0.  (`open` is a Lean
keyword, hence the name `openBuffer`.) -/
def MemoryInputStream.openBuffer (_s : MemoryInputStream) (buf : List Nat)
    (sizeInBytes : Nat) : MemoryInputStream :=
  { data := some buf, size := i64OfU64 sizeInBytes, offset := 0 }

/-- `<MemoryInputStream as InputStream>::read(data, size)`.  Returns the
`i64` return value together with the bytes copied into the destination
buffer, and the stream after the call.  The unchecked `i64` arithmetic of
the source — `self.offset + size`, `self.size - self.offset` and
`self.offset += count` — is modelled with the wrapping `i64Add`/`i64Sub`
(release-build semantics).  The copy
`copy_nonoverlapping(self.data.add(self.offset as usize), data, count as usize)`
is modelled as `(buf.drop (offset as usize)).take (count as usize)`. -/
def MemoryInputStream.read (s : MemoryInputStream) (size : Int) :
    (Int × List Nat) × MemoryInputStream :=
  match s.data with
  | none => ((-1, []), s)
  | some buf =>
    let endPosition := i64Add s.offset size
    let count := if endPosition ≤ s.size then size else i64Sub s.size s.offset
    if 0 < count then
      ((count, (buf.drop (u64OfI64 s.offset)).take (u64OfI64 count)),
        { s with offset := i64Add s.offset count })
    else
      ((count, []), s)

/-- `<MemoryInputStream as InputStream>::seek(position)`: clamps to `size`
from above only (`if position < self.size { position } else { self.size }`),
returns the resulting offset. -/
def MemoryInputStream.seek (s : MemoryInputStream) (position : Int) :
    Int × MemoryInputStream :=
  match s.data with
  | none => (-1, s)
  | some _ =>
    let newOffset := if position < s.size then position else s.size
    (newOffset, { s with offset := newOffset })

/-- `<MemoryInputStream as InputStream>::tell()`: returns 1 (not −1) on a
null data pointer, otherwise the current offset. -/
def MemoryInputStream.tell (s : MemoryInputStream) : Int × MemoryInputStream :=
  match s.data with
  | none => (1, s)
  | some _ => (s.offset, s)

/-- `<MemoryInputStream as InputStream>::size()`: −1 on a null data pointer,
otherwise the stored size.  (Named `sizeOp` because `size` is the field
accessor.) -/
def MemoryInputStream.sizeOp (s : MemoryInputStream) : Int × MemoryInputStream :=
  match s.data with
  | none => (-1, s)
  | some _ => (s.size, s)

/-- Sequential reads: issue `read` once per entry of `chunks`, concatenating
the bytes delivered to the destination buffers. -/
def MemoryInputStream.readChunks (s : MemoryInputStream) :
    List Int → List Nat × MemoryInputStream
  | [] => ([], s)
  | c :: cs =>
    let r := s.read c
    let rest := r.2.readChunks cs
    (r.1.2 ++ rest.1, rest.2)

/-- The documented invariant of an opened memory stream. -/
def MemInv (s : MemoryInputStream) : Prop :=
  0 ≤ s.offset ∧ s.offset ≤ s.size

instance (s : MemoryInputStream) : Decidable (MemInv s) := by
  unfold MemInv; infer_instance

/-- The OS file behind an open `FileInputStream`: total length in bytes,
current cursor position (a `u64`), and a schedule of underlying I/O
outcomes — each I/O call (`read`, `seek`, `stream_position`) consumes the
head of `errs`, `true` meaning that call fails.  An empty schedule means
every call succeeds. -/
structure OsFile where
  length : Nat
  pos : Nat
  errs : List Bool
  deriving Repr, DecidableEq

/-- `File::stream_position()`: the cursor position, or failure.  Consumes
one entry of the failure schedule. -/
def OsFile.tellPos (f : OsFile) : Option Nat × OsFile :=
  if f.errs.headD false then (none, { f with errs := f.errs.tail })
  else (some f.pos, { f with errs := f.errs.tail })

/-- `File::seek(SeekFrom::End(0))`: move the cursor to the file length.
Returns whether the call succeeded; consumes one schedule entry. -/
def OsFile.seekEnd (f : OsFile) : Bool × OsFile :=
  if f.errs.headD false then (false, { f with errs := f.errs.tail })
  else (true, { f with pos := f.length, errs := f.errs.tail })

/-- `File::seek(SeekFrom::Start(target))`: position the cursor at an
absolute `u64` offset; consumes one schedule entry.  On Unix the offset
is passed as a signed `off_t`, so targets at or above 2^63 fail; seeking
past end-of-file succeeds. -/
def OsFile.seekStart (f : OsFile) (target : Nat) : Bool × OsFile :=
  if f.errs.headD false ∨ 2 ^ 63 ≤ target then (false, { f with errs := f.errs.tail })
  else (true, { f with pos := target, errs := f.errs.tail })

/-- `File::read(buffer)` with a buffer of `requested` bytes: transfers
`min requested (length - pos)` bytes and advances the cursor, or fails;
consumes one schedule entry. -/
def OsFile.readBytes (f : OsFile) (requested : Nat) : Option Nat × OsFile :=
  if f.errs.headD false then (none, { f with errs := f.errs.tail })
  else (some (min requested (f.length - f.pos)),
    { f with pos := f.pos + min requested (f.length - f.pos), errs := f.errs.tail })

/-- `FileInputStream` from `input_stream.rs`: `file: Option<File>`. -/
structure FileInputStream where
  file : Option OsFile
  deriving Repr, DecidableEq

/-- `FileInputStream::default()`: no handle. -/
def FileInputStream.default : FileInputStream :=
  { file := none }

/-- `FileInputStream::open(filename)`: drops any held handle, then stores
the outcome of `File::open(filename).ok()` (modelled by the `openResult`
parameter: `some f` if the OS delivered a handle on the file `f`, `none`
otherwise) and returns `self.file.is_some()`. -/
def FileInputStream.openPath (s : FileInputStream) (openResult : Option OsFile) :
    Bool × FileInputStream :=
  let s1 : FileInputStream := if s.file.isSome then { file := none } else s
  let s2 : FileInputStream := { s1 with file := openResult }
  (s2.file.isSome, s2)

/-- `<FileInputStream as InputStream>::read(data, size)`: −1 without a
handle; otherwise `f.read(buffer).unwrap_or(0) as i64` on a buffer of
`size as usize` bytes. -/
def FileInputStream.read (s : FileInputStream) (size : Int) :
    Int × FileInputStream :=
  match s.file with
  | none => (-1, s)
  | some f =>
    match f.readBytes (u64OfI64 size) with
    | (some n, f1) => (i64OfU64 n, { file := some f1 })
    | (none, f1) => (0, { file := some f1 })

/-- `<FileInputStream as InputStream>::tell()`: −1 without a handle;
otherwise `stream_position()` cast `as i64`, or −1 on failure. -/
def FileInputStream.tell (s : FileInputStream) : Int × FileInputStream :=
  match s.file with
  | none => (-1, s)
  | some f =>
    match f.tellPos with
    | (some p, f1) => (i64OfU64 p, { file := some f1 })
    | (none, f1) => (-1, { file := some f1 })

/-- `<FileInputStream as InputStream>::seek(position)`: −1 without a
handle; otherwise `seek(SeekFrom::Start(position as u64))`, returning −1
if that fails and `self.tell()` if it succeeds. -/
def FileInputStream.seek (s : FileInputStream) (position : Int) :
    Int × FileInputStream :=
  match s.file with
  | none => (-1, s)
  | some f =>
    match f.seekStart (u64OfI64 position) with
    | (true, f1) => FileInputStream.tell { file := some f1 }
    | (false, f1) => (-1, { file := some f1 })

/-- `<FileInputStream as InputStream>::size()`: capture `tell()`, seek to
end (returning −1 if that seek fails), capture `tell()` as the size, seek
back to the captured position discarding the result, return the size. -/
def FileInputStream.size (s : FileInputStream) : Int × FileInputStream :=
  let t := s.tell
  match t.2.file with
  | some f =>
    let r := f.seekEnd
    if r.1 then
      let t2 := FileInputStream.tell { file := some r.2 }
      let r3 := t2.2.seek t.1
      (t2.1, r3.2)
    else (-1, { file := some r.2 })
  | none =>
    let t2 := t.2.tell
    let r3 := t2.2.seek t.1
    (t2.1, r3.2)

/-! ## Helper lemmas about the casts -/

lemma u64OfI64_toNat {p : Int} (h0 : 0 ≤ p) (h1 : p < 2 ^ 64) :
    u64OfI64 p = p.toNat := by
  unfold u64OfI64; omega

lemma u64OfI64_natCast {n : Nat} (h : n < 2 ^ 64) : u64OfI64 (n : Int) = n := by
  unfold u64OfI64; omega

lemma u64OfI64_of_neg {p : Int} (hlo : -(2 ^ 63) ≤ p) (hneg : p < 0) :
    2 ^ 63 ≤ u64OfI64 p := by
  unfold u64OfI64; omega

lemma i64OfU64_of_lt {n : Nat} (h : n < 2 ^ 63) : i64OfU64 n = (n : Int) :=
  if_pos h

lemma i64Add_eq {a b : Int} (h1 : -(2 ^ 63) ≤ a + b) (h2 : a + b < 2 ^ 63) :
    i64Add a b = a + b := by
  unfold i64Add; omega

lemma i64Sub_eq {a b : Int} (h1 : -(2 ^ 63) ≤ a - b) (h2 : a - b < 2 ^ 63) :
    i64Sub a b = a - b := by
  unfold i64Sub; omega

/-! ## Theorems for the claims -/

/-- C1 counterexample: the claim quantifies over every non-negative
requested count, but the source computes `end_position = offset + size`
as an unchecked `i64` addition.  On a 1-byte buffer at offset 1 (an
in-range state with `0 ≤ offset ≤ size`), a read requesting `2^63 − 1`
bytes (a valid non-negative `i64`) overflows: the wrapped end position is
negative, so the `end ≤ size` test passes and the call returns the full
requested count `2^63 − 1` instead of the clamped `size − offset = 0`. -/
theorem C1_cex_overflow :
    ((((MemoryInputStream.default.openBuffer [7] 1).seek 1).2.read (2 ^ 63 - 1)).1.1
        = 2 ^ 63 - 1) ∧
    ¬ ((((MemoryInputStream.default.openBuffer [7] 1).seek 1).2.read (2 ^ 63 - 1)).1.1
        = ((MemoryInputStream.default.openBuffer [7] 1).seek 1).2.size
          - ((MemoryInputStream.default.openBuffer [7] 1).seek 1).2.offset) := by
  decide

/-- C1 amended: on an opened MemoryInputStream with `0 ≤ offset ≤ size =
length` of the buffer, a `read` with requested count `n ≥ 0` such that
`offset + n` does not overflow an `i64` (`offset + n < 2^63`) returns `n`
when `offset + n ≤ size`, otherwise `size − offset`; it copies exactly
that many bytes, namely `buffer[offset .. offset+count)`, into the
destination and advances the offset by exactly that count (leaving data
and size unchanged).  For counts with `offset + n ≥ 2^63` the unchecked
`i64` addition wraps and the code does not clamp (see the
counterexample). -/
theorem C1_mem_read_clamped (s : MemoryInputStream) (buf : List Nat) (n : Int)
    (hdata : s.data = some buf) (hsz : s.size = (buf.length : Int))
    (hlen : (buf.length : Int) < 2 ^ 63)
    (h0 : 0 ≤ s.offset) (h1 : s.offset ≤ s.size) (hn : 0 ≤ n)
    (hov : s.offset + n < 2 ^ 63) :
    (s.offset + n ≤ s.size → (s.read n).1.1 = n) ∧
    (s.size < s.offset + n → (s.read n).1.1 = s.size - s.offset) ∧
    (s.read n).1.2 = (buf.drop s.offset.toNat).take ((s.read n).1.1).toNat ∧
    ((s.read n).1.2).length = ((s.read n).1.1).toNat ∧
    (s.read n).2.offset = s.offset + (s.read n).1.1 ∧
    (s.read n).2.data = s.data ∧ (s.read n).2.size = s.size := by
  have hoff : u64OfI64 s.offset = s.offset.toNat := u64OfI64_toNat h0 (by omega)
  have e1 : i64Add s.offset n = s.offset + n := i64Add_eq (by omega) (by omega)
  have e2 : i64Sub s.size s.offset = s.size - s.offset := i64Sub_eq (by omega) (by omega)
  have e3 : i64Add s.offset (s.size - s.offset) = s.offset + (s.size - s.offset) :=
    i64Add_eq (by omega) (by omega)
  simp only [MemoryInputStream.read, hdata, e1, e2]
  by_cases hc : s.offset + n ≤ s.size
  · rw [if_pos hc]
    by_cases hpos : 0 < n
    · rw [if_pos hpos]
      have hcnt : u64OfI64 n = n.toNat := u64OfI64_toNat hn (by omega)
      refine ⟨fun _ => rfl, fun h => absurd hc (by omega), ?_, ?_, e1, rfl, rfl⟩
      · simp [hoff, hcnt]
      · simp only [hoff, hcnt, List.length_take, List.length_drop]
        omega
    · have hz : n = 0 := by omega
      subst hz
      rw [if_neg hpos]
      refine ⟨fun _ => rfl, fun h => absurd hc (by omega), by simp, by simp, by simp, hdata, rfl⟩
  · rw [if_neg hc]
    have hrem0 : 0 ≤ s.size - s.offset := by omega
    by_cases hpos : 0 < s.size - s.offset
    · rw [if_pos hpos]
      have hcnt : u64OfI64 (s.size - s.offset) = (s.size - s.offset).toNat :=
        u64OfI64_toNat hrem0 (by omega)
      refine ⟨fun h => absurd h hc, fun _ => rfl, ?_, ?_, e3, rfl, rfl⟩
      · simp [hoff, hcnt]
      · simp only [hoff, hcnt, List.length_take, List.length_drop]
        omega
    · rw [if_neg hpos]
      have hz : s.size - s.offset = 0 := by omega
      refine ⟨fun h => absurd h hc, fun _ => rfl, by simp [hz], by simp [hz],
        ?_, hdata, rfl⟩
      show s.offset = s.offset + (s.size - s.offset)
      omega

/-- C1 witness: a 5-byte buffer at offset 3, read of 10 requested bytes:
returns 2 bytes, equal to `buffer[3..5)`, and the offset becomes 5. -/
theorem C1_mem_read_clamped_witness :
    let s : MemoryInputStream := ((MemoryInputStream.default.openBuffer [9, 8, 7, 6, 5] 5).seek 3).2
    (s.size < s.offset + 10 → (s.read 10).1.1 = s.size - s.offset) ∧
    (s.read 10).1.2 = ([9, 8, 7, 6, 5].drop s.offset.toNat).take ((s.read 10).1.1).toNat := by
  have h := C1_mem_read_clamped
    ((MemoryInputStream.default.openBuffer [9, 8, 7, 6, 5] 5).seek 3).2
    [9, 8, 7, 6, 5] 10 (by decide) (by decide) (by decide) (by decide) (by decide) (by decide)
    (by decide)
  exact ⟨h.2.1, h.2.2.1⟩

/-- C2: on an opened MemoryInputStream, `seek p` sets the offset to `p`
when `p` lies in `[0, size)`, clamps the offset to `size` when `p ≥ size`,
and returns the resulting offset. -/
theorem C2_mem_seek_clamps (s : MemoryInputStream) (p : Int)
    (hopen : s.data.isSome) :
    (0 ≤ p → p < s.size → (s.seek p).2.offset = p) ∧
    (s.size ≤ p → (s.seek p).2.offset = s.size) ∧
    (s.seek p).1 = (s.seek p).2.offset := by
  obtain ⟨buf, hb⟩ := Option.isSome_iff_exists.mp hopen
  simp only [MemoryInputStream.seek, hb]
  by_cases hp : p < s.size
  · rw [if_pos hp]
    exact ⟨fun _ _ => rfl, fun h => absurd hp (by omega), trivial⟩
  · rw [if_neg hp]
    exact ⟨fun _ h => absurd h hp, fun _ => rfl, trivial⟩

/-- C2 witness: a 10-byte buffer, seek to 15: offset becomes 10. -/
theorem C2_mem_seek_clamps_witness :
    ((MemoryInputStream.default.openBuffer (List.replicate 10 0) 10).seek 15).2.offset
      = (MemoryInputStream.default.openBuffer (List.replicate 10 0) 10).size :=
  (C2_mem_seek_clamps (MemoryInputStream.default.openBuffer (List.replicate 10 0) 10)
    15 (by decide)).2.1 (by decide)

/-- C3 counterexample: the claimed invariant `0 ≤ offset ≤ size` is not
preserved by every accepted argument.  First breach: `seek` accepts any
`i64`, and on a stream opened over a 10-byte buffer, `seek (-1)` sets the
offset to −1 (the code only clamps from above).  Second breach: `read`
accepts any `i64` count, and on a 1-byte buffer at offset 1 a read
requesting `2^63 − 1` bytes overflows the unchecked `i64` end-of-read
addition, wraps the offset to `−2^63` and so also breaks the invariant. -/
theorem C3_cex_negative_seek :
    ¬ MemInv ((MemoryInputStream.default.openBuffer (List.replicate 10 0) 10).seek (-1)).2 ∧
    ¬ MemInv (((MemoryInputStream.default.openBuffer [7] 1).seek 1).2.read (2 ^ 63 - 1)).2 := by
  decide

/-- C3 amended: the invariant `0 ≤ offset ≤ size` holds after open (with
the buffer's true length) and is preserved by `read` for every requested
count in the `i64` range whose end-of-read computation does not overflow
(`offset + count < 2^63`; overflowing counts wrap the offset negative),
by `seek` for every non-negative position (negative positions break it),
and by `tell` and the size operation; moreover, whenever a `read` copies
bytes (positive return), the accessed byte range `[offset, offset +
count)` lies inside `[0, length)` of the buffer. -/
theorem C3_amended_invariant (bufB : List Nat) (s : MemoryInputStream)
    (p q : Int) (hInv : MemInv s) (hq : 0 ≤ q)
    (hlenB : (bufB.length : Int) < 2 ^ 63)
    (hszB : s.size < 2 ^ 63) (hp63 : -(2 ^ 63) ≤ p) (hov : s.offset + p < 2 ^ 63) :
    MemInv (MemoryInputStream.default.openBuffer bufB bufB.length) ∧
    MemInv (s.read p).2 ∧
    MemInv (s.seek q).2 ∧
    MemInv s.tell.2 ∧
    MemInv s.sizeOp.2 ∧
    (∀ buf, s.data = some buf → s.size = (buf.length : Int) →
      0 < (s.read p).1.1 →
      s.offset.toNat + ((s.read p).1.1).toNat ≤ buf.length) := by
  obtain ⟨h0, h1⟩ := hInv
  have e1 : i64Add s.offset p = s.offset + p := i64Add_eq (by omega) (by omega)
  have e2 : i64Sub s.size s.offset = s.size - s.offset := i64Sub_eq (by omega) (by omega)
  have e3 : i64Add s.offset (s.size - s.offset) = s.offset + (s.size - s.offset) :=
    i64Add_eq (by omega) (by omega)
  unfold MemInv
  refine ⟨⟨le_refl 0, ?_⟩, ?_, ?_, ?_, ?_, ?_⟩
  · show (0 : Int) ≤ i64OfU64 bufB.length
    rw [i64OfU64_of_lt (by exact_mod_cast hlenB)]
    positivity
  · cases hd : s.data with
    | none =>
      simp only [MemoryInputStream.read, hd]
      exact ⟨h0, h1⟩
    | some buf =>
      simp only [MemoryInputStream.read, hd, e1, e2]
      by_cases hcc : s.offset + p ≤ s.size
      · rw [if_pos hcc]
        by_cases hc : 0 < p
        · rw [if_pos hc, e1]
          show (0 : Int) ≤ s.offset + p ∧ s.offset + p ≤ s.size
          omega
        · rw [if_neg hc]
          exact ⟨h0, h1⟩
      · rw [if_neg hcc]
        by_cases hc : 0 < s.size - s.offset
        · rw [if_pos hc, e3]
          show (0 : Int) ≤ s.offset + (s.size - s.offset) ∧
            s.offset + (s.size - s.offset) ≤ s.size
          omega
        · rw [if_neg hc]
          exact ⟨h0, h1⟩
  · cases hd : s.data with
    | none =>
      simp only [MemoryInputStream.seek, hd]
      exact ⟨h0, h1⟩
    | some buf =>
      simp only [MemoryInputStream.seek, hd]
      by_cases hp : q < s.size
      · rw [if_pos hp]
        show (0 : Int) ≤ q ∧ q ≤ s.size
        omega
      · rw [if_neg hp]
        show (0 : Int) ≤ s.size ∧ s.size ≤ s.size
        omega
  · cases hd : s.data <;> simp only [MemoryInputStream.tell, hd] <;> exact ⟨h0, h1⟩
  · cases hd : s.data <;> simp only [MemoryInputStream.sizeOp, hd] <;> exact ⟨h0, h1⟩
  · intro buf hdata hsz hread
    simp only [MemoryInputStream.read, hdata, e1, e2] at hread ⊢
    by_cases hcc : s.offset + p ≤ s.size
    · rw [if_pos hcc] at hread ⊢
      by_cases hc : 0 < p
      · rw [if_pos hc] at hread ⊢
        show s.offset.toNat + p.toNat ≤ buf.length
        omega
      · rw [if_neg hc] at hread
        exact absurd hread hc
    · rw [if_neg hcc] at hread ⊢
      by_cases hc : 0 < s.size - s.offset
      · rw [if_pos hc] at hread ⊢
        show s.offset.toNat + (s.size - s.offset).toNat ≤ buf.length
        omega
      · rw [if_neg hc] at hread
        exact absurd hread hc

/-- C3 witness: the amended invariant statement at a concrete opened
stream, concrete read count and concrete seek position. -/
theorem C3_amended_invariant_witness :
    MemInv ((MemoryInputStream.default.openBuffer [5, 6, 7] 3).seek 1).2 :=
  (C3_amended_invariant [9] (MemoryInputStream.default.openBuffer [5, 6, 7] 3) 2 1
    (by decide) (by decide) (by decide) (by decide) (by decide) (by decide)).2.2.1

/-- C4: on a default-constructed (never opened) MemoryInputStream, `read`,
`seek` and the size operation all return −1 and leave the stream
unchanged, while `tell` returns the positive sentinel 1, not −1. -/
theorem C4_unopened_sentinels (n p : Int) :
    MemoryInputStream.default.read n = ((-1, []), MemoryInputStream.default) ∧
    MemoryInputStream.default.seek p = (-1, MemoryInputStream.default) ∧
    MemoryInputStream.default.sizeOp = (-1, MemoryInputStream.default) ∧
    MemoryInputStream.default.tell = (1, MemoryInputStream.default) ∧
    0 < MemoryInputStream.default.tell.1 ∧
    MemoryInputStream.default.tell.1 ≠ -1 := by
  exact ⟨rfl, rfl, rfl, rfl, by decide, by decide⟩

/-- Sequential reads whose positive chunk sizes sum to the bytes remaining
deliver exactly the remaining bytes and leave the offset at the size. -/
lemma readChunks_drop (chunks : List Int) (s : MemoryInputStream) (buf : List Nat)
    (hdata : s.data = some buf) (hsz : s.size = (buf.length : Int))
    (hlen : (buf.length : Int) < 2 ^ 63)
    (h0 : 0 ≤ s.offset)
    (hpos : ∀ c ∈ chunks, 0 < c)
    (hsum : s.offset + chunks.sum = s.size) :
    s.readChunks chunks = (buf.drop s.offset.toNat, { s with offset := s.size }) := by
  induction chunks generalizing s with
  | nil =>
    have hoff : s.offset = s.size := by
      simpa using hsum
    have hdropn : buf.drop s.offset.toNat = [] := by
      apply List.drop_eq_nil_of_le
      omega
    have hs : s = ⟨s.data, s.size, s.size⟩ := by
      conv_lhs => rw [show s = (⟨s.data, s.size, s.offset⟩ : MemoryInputStream) from rfl]
      rw [hoff]
    simp only [MemoryInputStream.readChunks, hdropn]
    rw [← hs]
  | cons c cs ih =>
    have hc : 0 < c := hpos c (by simp)
    have hcs : ∀ d ∈ cs, 0 < d := fun d hd => hpos d (by simp [hd])
    have hsums : (0 : Int) ≤ cs.sum := List.sum_nonneg fun d hd => (hcs d hd).le
    have hsum2 : s.offset + (c + cs.sum) = s.size := by
      simpa using hsum
    have hcle : s.offset + c ≤ s.size := by omega
    have hoff : u64OfI64 s.offset = s.offset.toNat := u64OfI64_toNat h0 (by omega)
    have hcnt : u64OfI64 c = c.toNat := u64OfI64_toNat hc.le (by omega)
    have e1 : i64Add s.offset c = s.offset + c := i64Add_eq (by omega) (by omega)
    have hread : s.read c = ((c, (buf.drop s.offset.toNat).take c.toNat),
        { s with offset := s.offset + c }) := by
      simp only [MemoryInputStream.read, hdata, e1]
      rw [if_pos hcle, if_pos hc, e1, hoff, hcnt]
    simp only [MemoryInputStream.readChunks, hread]
    rw [ih { s with offset := s.offset + c } hdata hsz
      (by show (0 : Int) ≤ s.offset + c; omega) hcs
      (by show s.offset + c + cs.sum = s.size; omega)]
    rw [show (s.offset + c).toNat = s.offset.toNat + c.toNat by omega]
    rw [← List.drop_drop c.toNat s.offset.toNat buf]
    rw [List.take_append_drop]

/-- C5: opening a MemoryInputStream on a buffer `B` of length `L` and
issuing sequential reads whose positive chunk sizes partition `L`
reproduces exactly the bytes of `B` in order, and `tell` afterwards
returns `L`. -/
theorem C5_sequential_roundtrip (buf : List Nat) (chunks : List Int)
    (hlen : (buf.length : Int) < 2 ^ 63)
    (hpos : ∀ c ∈ chunks, 0 < c)
    (hsum : chunks.sum = (buf.length : Int)) :
    ((MemoryInputStream.default.openBuffer buf buf.length).readChunks chunks).1 = buf ∧
    (((MemoryInputStream.default.openBuffer buf buf.length).readChunks chunks).2.tell).1
      = (buf.length : Int) := by
  have hsize : (MemoryInputStream.default.openBuffer buf buf.length).size
      = (buf.length : Int) := by
    show i64OfU64 buf.length = (buf.length : Int)
    exact i64OfU64_of_lt (by exact_mod_cast hlen)
  have h := readChunks_drop chunks (MemoryInputStream.default.openBuffer buf buf.length)
    buf rfl hsize hlen (le_refl 0) hpos
    (by rw [hsize]; show (0 : Int) + chunks.sum = (buf.length : Int); omega)
  rw [h]
  constructor
  · show buf.drop (0 : Int).toNat = buf
    simp
  · show i64OfU64 buf.length = (buf.length : Int)
    exact i64OfU64_of_lt (by exact_mod_cast hlen)

/-- C5 witness: a 3-byte buffer read in chunks of 1 and 2 bytes. -/
theorem C5_sequential_roundtrip_witness :
    ((MemoryInputStream.default.openBuffer [4, 5, 6] 3).readChunks [1, 2]).1 = [4, 5, 6] :=
  (C5_sequential_roundtrip [4, 5, 6] [1, 2] (by decide) (by decide) (by decide)).1

/-- C10 counterexample: on an opened MemoryInputStream, `read` with
requested count −1 returns −1 itself, which IS the error sentinel value,
contradicting the claim that the returned negative count is never the −1
sentinel. -/
theorem C10_cex_read_neg_one :
    ((MemoryInputStream.default.openBuffer [1, 2, 3] 3).read (-1)).1.1 = -1 := by
  decide

/-- C10 amended: on an opened MemoryInputStream whose offset does not
exceed its `i64` size and whose end-of-read computation `offset + n`
stays in the `i64` range (no underflow, which is unreachable unless the
offset was first driven negative by a negative seek), `read` with a
negative requested count `n` returns `n` itself, copies no bytes and
leaves the stream unchanged; for `n ≤ −2` that value is neither a valid
byte count nor the −1 sentinel, while for `n = −1` it coincides with the
−1 error sentinel. -/
theorem C10_amended_read_negative (s : MemoryInputStream) (buf : List Nat) (n : Int)
    (hdata : s.data = some buf) (h1 : s.offset ≤ s.size) (hn : n < 0)
    (hszB : s.size < 2 ^ 63) (hund : -(2 ^ 63) ≤ s.offset + n) :
    s.read n = ((n, []), s) := by
  have e1 : i64Add s.offset n = s.offset + n := i64Add_eq hund (by omega)
  simp only [MemoryInputStream.read, hdata, e1]
  rw [if_pos (by omega : s.offset + n ≤ s.size), if_neg (by omega : ¬ (0 : Int) < n)]

/-- C10 witness: a 2-byte opened buffer, read of −3 requested bytes:
returns −3, copies nothing, stream unchanged. -/
theorem C10_amended_read_negative_witness :
    (MemoryInputStream.default.openBuffer [1, 2] 2).read (-3)
      = ((-3, []), MemoryInputStream.default.openBuffer [1, 2] 2) :=
  C10_amended_read_negative (MemoryInputStream.default.openBuffer [1, 2] 2) [1, 2] (-3)
    rfl (by decide) (by decide) (by decide) (by decide)

/-- C6: `FileInputStream::read` returns −1 exactly when no handle is
held; with a handle, an underlying I/O read failure yields 0 (not −1),
and a successful read returns the number of bytes actually transferred
(the minimum of the requested count and the bytes remaining before
end-of-file, so 0 at end-of-file and partial counts are possible). -/
theorem C6_file_read_errors (s : FileInputStream) (req : Int)
    (hlen : ∀ f, s.file = some f → f.length < 2 ^ 63) :
    ((s.read req).1 = -1 ↔ s.file = none) ∧
    (∀ f, s.file = some f →
      (f.errs.headD false = true → (s.read req).1 = 0) ∧
      (f.errs.headD false = false →
        (s.read req).1 = ((min (u64OfI64 req) (f.length - f.pos) : Nat) : Int))) := by
  obtain ⟨file⟩ := s
  cases file with
  | none =>
    refine ⟨⟨fun _ => rfl, fun _ => rfl⟩, ?_⟩
    intro f hf
    exact Option.noConfusion (show (none : Option OsFile) = some f from hf)
  | some f =>
    obtain ⟨len, pos, errs⟩ := f
    have hflen : len < 2 ^ 63 := hlen ⟨len, pos, errs⟩ rfl
    cases errs with
    | nil =>
      have hr : (FileInputStream.mk (some ⟨len, pos, []⟩)).read req
          = (i64OfU64 (min (u64OfI64 req) (len - pos)),
             FileInputStream.mk (some ⟨len, pos + min (u64OfI64 req) (len - pos), []⟩)) := rfl
      have hv : i64OfU64 (min (u64OfI64 req) (len - pos))
          = ((min (u64OfI64 req) (len - pos) : Nat) : Int) :=
        i64OfU64_of_lt (by omega)
      refine ⟨?_, ?_⟩
      · constructor
        · intro h
          rw [hr] at h
          have h2 : i64OfU64 (min (u64OfI64 req) (len - pos)) = -1 := h
          rw [hv] at h2
          exact absurd h2 (by omega)
        · intro h
          exact Option.noConfusion (show some (⟨len, pos, []⟩ : OsFile) = none from h)
      · intro g hg
        have hgf : (⟨len, pos, []⟩ : OsFile) = g :=
          Option.some.inj (show some (⟨len, pos, []⟩ : OsFile) = some g from hg)
        subst hgf
        refine ⟨fun hcon => Bool.noConfusion (show false = true from hcon), fun _ => ?_⟩
        rw [hr]
        exact hv
    | cons b rest =>
      cases b with
      | true =>
        have hr : (FileInputStream.mk (some ⟨len, pos, true :: rest⟩)).read req
            = (0, FileInputStream.mk (some ⟨len, pos, rest⟩)) := rfl
        refine ⟨?_, ?_⟩
        · constructor
          · intro h
            rw [hr] at h
            exact absurd (show (0 : Int) = -1 from h) (by decide)
          · intro h
            exact Option.noConfusion (show some (⟨len, pos, true :: rest⟩ : OsFile) = none from h)
        · intro g hg
          have hgf : (⟨len, pos, true :: rest⟩ : OsFile) = g :=
            Option.some.inj (show some (⟨len, pos, true :: rest⟩ : OsFile) = some g from hg)
          subst hgf
          exact ⟨fun _ => by rw [hr], fun hcon => Bool.noConfusion (show true = false from hcon)⟩
      | false =>
        have hr : (FileInputStream.mk (some ⟨len, pos, false :: rest⟩)).read req
            = (i64OfU64 (min (u64OfI64 req) (len - pos)),
               FileInputStream.mk (some ⟨len, pos + min (u64OfI64 req) (len - pos), rest⟩)) :=
          rfl
        have hv : i64OfU64 (min (u64OfI64 req) (len - pos))
            = ((min (u64OfI64 req) (len - pos) : Nat) : Int) :=
          i64OfU64_of_lt (by omega)
        refine ⟨?_, ?_⟩
        · constructor
          · intro h
            rw [hr] at h
            have h2 : i64OfU64 (min (u64OfI64 req) (len - pos)) = -1 := h
            rw [hv] at h2
            exact absurd h2 (by omega)
          · intro h
            exact Option.noConfusion
              (show some (⟨len, pos, false :: rest⟩ : OsFile) = none from h)
        · intro g hg
          have hgf : (⟨len, pos, false :: rest⟩ : OsFile) = g :=
            Option.some.inj (show some (⟨len, pos, false :: rest⟩ : OsFile) = some g from hg)
          subst hgf
          refine ⟨fun hcon => Bool.noConfusion (show false = true from hcon), fun _ => ?_⟩
          rw [hr]
          exact hv

/-- C6 witness: a held handle on a 5-byte file at position 0 with no I/O
failure: a read requesting 3 bytes returns 3. -/
theorem C6_file_read_errors_witness :
    ((FileInputStream.mk (some ⟨5, 0, []⟩)).read 3).1 = 3 := by
  have h := (C6_file_read_errors (FileInputStream.mk (some ⟨5, 0, []⟩)) 3
    (by intro f hf; cases hf; decide)).2 ⟨5, 0, []⟩ rfl
  rw [h.2 rfl]
  decide

/-- C7 counterexample: the claim says a failing step forces `size()` to
return −1; but on a handle whose first I/O call (the initial position
query) fails — observable as `tell` returning −1 on the same state —
`size()` of a 5-byte file still returns 5, not −1. -/
theorem C7_cex_initial_tell_failure :
    (FileInputStream.mk (some ⟨5, 0, [true]⟩)).tell.1 = -1 ∧
    (FileInputStream.mk (some ⟨5, 0, [true]⟩)).size.1 = 5 := by
  decide

/-- C7 amended: with a handle at position K and every underlying I/O call
succeeding, `size()` returns the file's total byte count and restores the
stream exactly (so `tell` before equals `tell` after); if the seek-to-end
step fails, `size()` returns −1; but a failure of the initial position
query does not force −1 (see the counterexample), and cursor restoration
is best-effort only. -/
theorem C7_amended_size_preserves_position (f : OsFile)
    (glen gpos : Nat) (grest : List Bool)
    (herr : f.errs = []) (hpos : f.pos < 2 ^ 63) (hlen : f.length < 2 ^ 63) :
    (FileInputStream.mk (some f)).size.1 = (f.length : Int) ∧
    (FileInputStream.mk (some f)).size.2 = FileInputStream.mk (some f) ∧
    ((FileInputStream.mk (some f)).size.2.tell).1 = ((FileInputStream.mk (some f)).tell).1 ∧
    (FileInputStream.mk (some ⟨glen, gpos, false :: true :: grest⟩)).size.1 = -1 := by
  obtain ⟨len, pos, errs⟩ := f
  have herr2 : errs = [] := herr
  subst herr2
  have hpos2 : pos < 2 ^ 63 := hpos
  have hlen2 : len < 2 ^ 63 := hlen
  have htell : (FileInputStream.mk (some ⟨len, pos, []⟩)).tell
      = ((pos : Int), FileInputStream.mk (some ⟨len, pos, []⟩)) := by
    rw [show (FileInputStream.mk (some ⟨len, pos, []⟩)).tell
        = (i64OfU64 pos, FileInputStream.mk (some ⟨len, pos, []⟩)) from rfl]
    rw [i64OfU64_of_lt hpos2]
  have hseekback : (FileInputStream.mk (some ⟨len, len, []⟩)).seek ((pos : Int))
      = ((pos : Int), FileInputStream.mk (some ⟨len, pos, []⟩)) := by
    have hcast : u64OfI64 ((pos : Nat) : Int) = pos := u64OfI64_natCast (by omega)
    simp only [FileInputStream.seek, OsFile.seekStart, hcast]
    rw [if_neg (not_or.mpr ⟨by decide, by omega⟩)]
    exact htell
  have htell2 : FileInputStream.tell (FileInputStream.mk (some ⟨len, len, []⟩))
      = ((len : Int), FileInputStream.mk (some ⟨len, len, []⟩)) := by
    rw [show FileInputStream.tell (FileInputStream.mk (some ⟨len, len, []⟩))
        = (i64OfU64 len, FileInputStream.mk (some ⟨len, len, []⟩)) from rfl]
    rw [i64OfU64_of_lt hlen2]
  have hsize : (FileInputStream.mk (some ⟨len, pos, []⟩)).size
      = ((len : Int), FileInputStream.mk (some ⟨len, pos, []⟩)) := by
    rw [show (FileInputStream.mk (some ⟨len, pos, []⟩)).size
        = ((FileInputStream.tell (FileInputStream.mk (some ⟨len, len, []⟩))).1,
           ((FileInputStream.tell (FileInputStream.mk (some ⟨len, len, []⟩))).2.seek
             ((FileInputStream.mk (some ⟨len, pos, []⟩)).tell.1)).2) from rfl]
    rw [htell2, htell]
    show ((len : Int), ((FileInputStream.mk (some ⟨len, len, []⟩)).seek ((pos : Int))).2)
      = ((len : Int), FileInputStream.mk (some ⟨len, pos, []⟩))
    rw [hseekback]
  exact ⟨by rw [hsize], by rw [hsize], by rw [hsize], rfl⟩

/-- C7 witness: a 7-byte file with the cursor at 2 and no I/O failures:
`size()` returns 7 (and the second component shows the state restored). -/
theorem C7_amended_size_preserves_position_witness :
    (FileInputStream.mk (some ⟨7, 2, []⟩)).size.1 = 7 :=
  (C7_amended_size_preserves_position ⟨7, 2, []⟩ 3 1 []
    rfl (by decide) (by decide)).1

/-- C8: `FileInputStream::seek(p)` (with `p` in the `i64` range) returns
−1 when no handle is held; with a handle it returns −1 when the
underlying I/O seek fails (which includes every negative `p`, whose
`as u64` cast lands at or above 2^63), and when the underlying seek
succeeds with `p ≥ 0` the cursor is repositioned to the absolute offset
`p` and the call returns the post-seek position as obtained via `tell`. -/
theorem C8_file_seek (s : FileInputStream) (p : Int)
    (hlo : -(2 ^ 63) ≤ p) (hhi : p < 2 ^ 63) :
    (s.file = none → (s.seek p).1 = -1) ∧
    (∀ f, s.file = some f →
      ((f.errs.headD false = true ∨ p < 0) → (s.seek p).1 = -1) ∧
      (f.errs.headD false = false → 0 ≤ p →
        s.seek p = FileInputStream.tell
          (FileInputStream.mk (some ⟨f.length, p.toNat, f.errs.tail⟩)))) := by
  obtain ⟨file⟩ := s
  cases file with
  | none =>
    refine ⟨fun _ => rfl, ?_⟩
    intro f hf
    exact Option.noConfusion (show (none : Option OsFile) = some f from hf)
  | some f =>
    refine ⟨fun h => Option.noConfusion (show some f = none from h), ?_⟩
    intro g hg
    have hgf : f = g := Option.some.inj (show some f = some g from hg)
    subst hgf
    constructor
    · intro hfail
      have hcond : f.errs.headD false = true ∨ 2 ^ 63 ≤ u64OfI64 p := by
        cases hfail with
        | inl h => exact Or.inl h
        | inr h => exact Or.inr (u64OfI64_of_neg hlo h)
      have hseq : (FileInputStream.mk (some f)).seek p
          = (-1, FileInputStream.mk (some ⟨f.length, f.pos, f.errs.tail⟩)) := by
        simp only [FileInputStream.seek, OsFile.seekStart]
        rw [if_pos (by
          cases hcond with
          | inl h => exact Or.inl h
          | inr h => exact Or.inr h)]
      rw [hseq]
    · intro hok hnn
      have hcast : u64OfI64 p = p.toNat := u64OfI64_toNat hnn (by omega)
      have hsmall : ¬ 2 ^ 63 ≤ p.toNat := by omega
      simp only [FileInputStream.seek, OsFile.seekStart, hcast]
      rw [if_neg (by
        rw [hok]
        simp only [Bool.false_eq_true, false_or]
        exact hsmall)]

/-- C8 witness: a 10-byte file with cursor at 7 and no failures: seek to
4 returns 4 (the post-seek position). -/
theorem C8_file_seek_witness :
    ((FileInputStream.mk (some ⟨10, 7, []⟩)).seek 4).1 = 4 := by
  have h := ((C8_file_seek (FileInputStream.mk (some ⟨10, 7, []⟩)) 4
    (by decide) (by decide)).2 ⟨10, 7, []⟩ rfl).2 rfl (by decide)
  rw [h]
  decide

/-- C9: `FileInputStream::open` drops any previously held handle and then
stores the outcome of the OS open; it returns true exactly when the
stream afterwards holds a (fresh) handle — namely the one the OS
delivered — and when it returns false the stream holds no handle. -/
theorem C9_file_open_welldefined (s : FileInputStream) (res : Option OsFile) :
    ((s.openPath res).1 = true ↔ (s.openPath res).2.file.isSome = true) ∧
    (s.openPath res).2.file = res ∧
    ((s.openPath res).1 = false → (s.openPath res).2.file = none) := by
  cases res with
  | none => exact ⟨Iff.rfl, rfl, fun _ => rfl⟩
  | some f =>
    refine ⟨Iff.rfl, rfl, ?_⟩
    intro h
    exact absurd (show (true : Bool) = false from h) (by decide)
